import Mathlib

/-!
Verification of the Plaid-to-PostgreSQL ELT pipeline.

This file gives a shallow embedding of the repository's core operations:

* `extract_transactions` — the paginated transaction fetch shared by
  `extrqct_upsert_accunt.py` and `plaid_to_PostgreSQL_ETL_Detailed_Logging.py`
  (lines 149-175 resp. 155-170).  The source API is modelled as a list of
  records together with a page size: the script's request carries no offset,
  so every `transactions_get` call returns the same first page
  (`source.take pageSize`), and `total_transactions` is the length of the
  source window.  The `while len(transactions) < total` loop is modelled with
  fuel, returning `none` when the fuel runs out (the Python loop would not
  have terminated within that many iterations).

* `resolve_dates` — the date-window defaulting at the top of
  `extract_transactions` (UTC dates are modelled as integer day numbers).

* the upsert machinery of `load_accounts` / `load_transactions`
  (`extrqct_upsert_accunt.py` lines 178-267): one `INSERT .. ON CONFLICT ..
  DO UPDATE .. RETURNING (xmax = 0)` statement per `execute_values` page of
  100 rows, with the cursor retaining only the last page's RETURNING rows.

* `upsert_table` — the generic upsert of the detailed-logging script
  (lines 173-190), which has no RETURNING clause and reports only
  `len(data_list)`.

* `run_extrqct` / `run_logging` — the two orchestrators' resource handling
  (try/except/finally vs. straight-line code).

* `export_key` / `export_table_to_s3_key_at` — the S3 key construction of
  `postgres_to_s3.py` (timestamped) and of the detailed-logging exporter
  (not timestamped).

* `pgStoreDecimal2` / `pgReadDecimal2` — assignment to and retrieval from a
  `DECIMAL(15,2)` column.
-/

/-! ## Source client: paginated transaction fetch -/

/-- One response of the source to the script's `TransactionsGetRequest`.
The request built in `extract_transactions` carries no `offset` option, so
the source always answers with the first page of the window. -/
def transactionsGetPage (source : List α) (pageSize : Nat) : List α :=
  source.take pageSize

/-- The `while len(transactions) < total: transactions.extend(resp["transactions"])`
loop of `extract_transactions`.  Every iteration appends the same
(offset-less) page.  `fuel` bounds the number of iterations; `none` means the
loop had not terminated after `fuel` iterations. -/
def fetchLoop (page : List α) (total : Nat) : List α → Nat → Option (List α)
  | acc, fuel =>
    if acc.length < total then
      match fuel with
      | 0 => none
      | n + 1 => fetchLoop page total (acc ++ page) n
    else
      some acc

/-- `extract_transactions`: first request yields the first page and the
reported `total_transactions` (the window's full count when the field is
present, otherwise the first page's own length), then the pagination loop
runs until the accumulated list is at least `total` long. -/
def extract_transactions (source : List α) (pageSize : Nat) (totalPresent : Bool)
    (fuel : Nat) : Option (List α) :=
  let firstPage := transactionsGetPage source pageSize
  let total := if totalPresent then source.length else firstPage.length
  fetchLoop (transactionsGetPage source pageSize) total firstPage fuel

/-- The date-window defaulting of `extract_transactions`: each absent bound
is defaulted independently, `start_date` to the UTC date 90 days before now
and `end_date` to the current UTC date.  Dates are integer day numbers. -/
def resolve_dates (start_date end_date : Option Int) (todayUTC : Int) : Int × Int :=
  (match start_date with
   | none => todayUTC - 90
   | some s => s,
   match end_date with
   | none => todayUTC
   | some e => e)

/-! ## Relational store: tables and the bulk upsert -/

/-- A stored row.  `key` is the natural key (`account_id` resp.
`transaction_id`), `fixed` holds the insert-only columns that the
`ON CONFLICT .. DO UPDATE SET` list omits (for `transactions` the
`account_id` column; `accounts` has none), `vals` holds the columns the
conflict action refreshes. -/
structure TableRow (σ β : Type) where
  key : String
  fixed : σ
  vals : β
  created_at : Nat
  updated_at : Nat
deriving DecidableEq, Repr

/-- A table is its list of rows. -/
abbrev Table (σ β : Type) := List (TableRow σ β)

/-- One mapped input row of an upsert batch. -/
structure InputRow (σ β : Type) where
  key : String
  fixed : σ
  vals : β
deriving DecidableEq, Repr

/-- Whether the table holds a row with the given natural key. -/
def hasKey (t : Table σ β) (k : String) : Bool :=
  t.any fun r => r.key == k

/-- The conflict action of the loaders in `extrqct_upsert_accunt.py`:
refresh the updatable columns and `updated_at`; `created_at` and the
insert-only columns keep their stored values. -/
def updateRow (t : Table σ β) (k : String) (m : β) (now : Nat) : Table σ β :=
  t.map fun r => if r.key == k then { r with vals := m, updated_at := now } else r

/-- A freshly inserted row: every column comes from the input,
`created_at` and `updated_at` from the load's wall-clock. -/
def newRow (i : InputRow σ β) (now : Nat) : TableRow σ β :=
  ⟨i.key, i.fixed, i.vals, now, now⟩

/-- Errors a bulk upsert statement can raise. -/
inductive LoadError : Type
  /-- `ON CONFLICT DO UPDATE command cannot affect row a second time`. -/
  | dupKeyInStatement
  /-- referential-integrity violation on `account_id`. -/
  | fkViolation
deriving DecidableEq, Repr

/-- Processing of one `VALUES` row inside one statement.  The state is the
table, the `RETURNING (xmax = 0)` flags emitted so far, and the keys already
affected by this statement.  A row whose key conflicts takes the update path
(no foreign-key check: the stored `account_id` is untouched); a fresh row is
checked against `fkOk` and inserted. -/
def upsertRowStep (fkOk : σ → Bool) (now : Nat)
    (st : Table σ β × List Bool × List String) (i : InputRow σ β) :
    Except LoadError (Table σ β × List Bool × List String) :=
  let (t, flags, affected) := st
  if affected.contains i.key then
    .error .dupKeyInStatement
  else if hasKey t i.key then
    .ok (updateRow t i.key i.vals now, flags ++ [false], i.key :: affected)
  else if fkOk i.fixed then
    .ok (t ++ [newRow i now], flags ++ [true], i.key :: affected)
  else
    .error .fkViolation

/-- One `INSERT .. ON CONFLICT .. DO UPDATE .. RETURNING (xmax = 0)`
statement over one `execute_values` page, yielding the new table and the
per-row freshly-inserted flags. -/
def execStatement (fkOk : σ → Bool) (now : Nat) (t : Table σ β)
    (page : List (InputRow σ β)) : Except LoadError (Table σ β × List Bool) :=
  (page.foldlM (upsertRowStep fkOk now) (t, [], [])).map fun st => (st.1, st.2.1)

/-- `psycopg2.extras.execute_values` splits the batch into pages of 100
rows. -/
def pageSizeEV : Nat := 100

/-- Structural chunking helper (`fuel` is an upper bound on the number of
chunks, instantiated with the list's length). -/
def toChunksFuel : Nat → List α → List (List α)
  | 0, _ => []
  | _, [] => []
  | n + 1, l => l.take pageSizeEV :: toChunksFuel n (l.drop pageSizeEV)

/-- The pages `execute_values` executes, in order. -/
def toChunks (l : List α) : List (List α) :=
  toChunksFuel l.length l

/-- Sequential execution of the pages on one cursor in one transaction.
The cursor retains only the result set of the last statement, which is what
`cursor.fetchall()` returns afterwards. -/
def execPages (fkOk : σ → Bool) (now : Nat) :
    Table σ β → List (List (InputRow σ β)) → Except LoadError (Table σ β × List Bool)
  | t, [] => .ok (t, [])
  | t, [p] => execStatement fkOk now t p
  | t, p :: q :: ps =>
    match execStatement fkOk now t p with
    | .error e => .error e
    | .ok st => execPages fkOk now st.1 (q :: ps)

/-- The shared body of `load_accounts` and `load_transactions`:
`execute_values` over the pages, then `inserted = sum(r[0] for r in
cursor.fetchall())` and `updated = len(result) - inserted`, then commit. -/
def loadCore (fkOk : σ → Bool) (t : Table σ β) (batch : List (InputRow σ β))
    (now : Nat) : Except LoadError (Table σ β × Nat × Nat) :=
  (execPages fkOk now t (toChunks batch)).map fun st =>
    (st.1, st.2.count true, st.2.length - st.2.count true)

/-- `load_accounts` (`extrqct_upsert_accunt.py` lines 178-219): early return
on an empty batch, otherwise the bulk upsert keyed on `account_id`.  The
`accounts` table has no foreign key, so every fresh row is insertable. -/
def load_accounts (t : Table Unit β) (batch : List (InputRow Unit β)) (now : Nat) :
    Except LoadError (Table Unit β × Nat × Nat) :=
  if batch.isEmpty then .ok (t, 0, 0)
  else loadCore (fun _ => true) t batch now

/-- `load_transactions` (`extrqct_upsert_accunt.py` lines 221-267): early
return on an empty batch, otherwise the bulk upsert keyed on
`transaction_id`.  An inserted row's `account_id` (the `fixed` component)
must reference an existing account (`REFERENCES accounts(account_id)`). -/
def load_transactions (accounts : Table Unit α) (t : Table String γ)
    (batch : List (InputRow String γ)) (now : Nat) :
    Except LoadError (Table String γ × Nat × Nat) :=
  if batch.isEmpty then .ok (t, 0, 0)
  else loadCore (fun accountId => hasKey accounts accountId) t batch now

/-- The committed state of the table after a load call: the new table when
the statement and commit succeeded, the untouched previous table when the
statement failed (the commit is never reached and the transaction holds no
committed rows). -/
def committedTable (t : Table σ β) (r : Except LoadError (Table σ β × Nat × Nat)) :
    Table σ β :=
  match r with
  | .ok st => st.1
  | .error _ => t

/-! ## The generic `upsert_table` of the detailed-logging script -/

/-- Row processing of `upsert_table`
(`plaid_to_PostgreSQL_ETL_Detailed_Logging.py` lines 173-190): its
`ON CONFLICT .. DO UPDATE SET` list contains every non-conflict column, so a
conflicting row also overwrites `created_at`; there is no RETURNING
clause. -/
def upsert_table_rows (now : Nat) :
    Table Unit β → List String → List (InputRow Unit β) → Except LoadError (Table Unit β)
  | t, _, [] => .ok t
  | t, affected, i :: rest =>
    if affected.contains i.key then
      .error .dupKeyInStatement
    else if hasKey t i.key then
      upsert_table_rows now
        (t.map fun r => if r.key == i.key then ⟨r.key, r.fixed, i.vals, now, now⟩ else r)
        (i.key :: affected) rest
    else
      upsert_table_rows now (t ++ [newRow i now]) (i.key :: affected) rest

/-- `upsert_table`: empty batches return after printing a notice; otherwise
the statement pages run and the call reports only `len(data_list)`
(`✓ Upserted {len(data_list)} rows`) — there is no insert/update split. -/
def upsert_table (t : Table Unit β) (batch : List (InputRow Unit β)) (now : Nat) :
    Except LoadError (Table Unit β × Nat) :=
  if batch.isEmpty then .ok (t, 0)
  else ((toChunks batch).foldlM (fun acc p => upsert_table_rows now acc [] p) t).map
    fun T => (T, batch.length)

/-- The insert count the specification's upsert contract requires: the
number of batch rows whose natural key was previously absent from the
table.  (Stated from the specification's words, for comparison with what the
code reports.) -/
def specInsertedCount (t : Table σ β) (batch : List (InputRow σ β)) : Nat :=
  (batch.filter fun i => !hasKey t i.key).length

/-! ## The two orchestrators -/

/-- The part of the pipeline state the orchestrators' cleanup code
inspects: whether `self.pg_conn` holds a live connection. -/
structure EtlState where
  connOpen : Bool
deriving DecidableEq, Repr

/-- A pipeline step after the connection step: it either raises (leaving the
state as it stands) or completes. -/
def pipelineStep (fails : Bool) (s : EtlState) : Except EtlState EtlState :=
  if fails then .error s else .ok s

/-- `connect_postgres`: on success `self.pg_conn` becomes a live connection;
if `psycopg2.connect` raises, the assignment never happens. -/
def connectStep (fails : Bool) (s : EtlState) : Except EtlState EtlState :=
  if fails then .error s else .ok { s with connOpen := true }

/-- The observable outcome of one orchestrator run. -/
structure RunReport where
  /-- a store connection was acquired during the run -/
  connAcquired : Bool
  /-- the store connection was closed by the end of the run -/
  connReleased : Bool
  /-- `rollback()` was invoked on the connection -/
  rolledBack : Bool
  /-- the triggering exception propagated to the caller -/
  reRaised : Bool
deriving DecidableEq, Repr

/-- `PlaidPostgresETL.run` of `extrqct_upsert_accunt.py` (lines 270-295).
The six steps of the `try` block are connect, `create_tables`,
`extract_accounts`, `extract_transactions`, `load_accounts`,
`load_transactions`; each argument says whether that step raises.  The
`except` clause rolls back when `self.pg_conn` is set and re-raises; the
`finally` clause closes the connection when it is set. -/
def run_extrqct (fConnect fTables fExtractAcc fExtractTx fLoadAcc fLoadTx : Bool) :
    RunReport :=
  let body : Except EtlState EtlState :=
    connectStep fConnect ⟨false⟩ >>= pipelineStep fTables >>=
      pipelineStep fExtractAcc >>= pipelineStep fExtractTx >>=
      pipelineStep fLoadAcc >>= pipelineStep fLoadTx
  match body with
  | .ok s => ⟨s.connOpen, s.connOpen, false, false⟩
  | .error s => ⟨s.connOpen, s.connOpen, s.connOpen, true⟩

/-- `PlaidPostgresETL.run` of `plaid_to_PostgreSQL_ETL_Detailed_Logging.py`
(lines 212-247).  The nine steps are connect, `create_tables`,
`list_tables`, `extract_accounts`, `extract_transactions`, the accounts
upsert, the transactions upsert, the placeholder-table upserts and the
table exports.  The body has no `try`/`except`/`finally`: an exception
propagates to the caller, and no `rollback()` or `close()` is ever
executed on either path. -/
def run_logging (fConnect fTables fList fExtractAcc fExtractTx fUpsertAcc
    fUpsertTx fUpsertEmpty fExport : Bool) : RunReport :=
  let body : Except EtlState EtlState :=
    connectStep fConnect ⟨false⟩ >>= pipelineStep fTables >>=
      pipelineStep fList >>= pipelineStep fExtractAcc >>=
      pipelineStep fExtractTx >>= pipelineStep fUpsertAcc >>=
      pipelineStep fUpsertTx >>= pipelineStep fUpsertEmpty >>=
      pipelineStep fExport
  match body with
  | .ok s => ⟨s.connOpen, false, false, false⟩
  | .error s => ⟨s.connOpen, false, false, true⟩

/-! ## Export artifact keys -/

/-- A wall-clock instant at the second resolution of
`strftime("%Y%m%dT%H%M%SZ")`. -/
structure Timestamp where
  year : Nat
  month : Nat
  day : Nat
  hour : Nat
  minute : Nat
  second : Nat
deriving DecidableEq, Repr

/-- Field ranges under which the `strftime` rendering is fixed-width. -/
def Timestamp.wellFormed (t : Timestamp) : Prop :=
  1000 ≤ t.year ∧ t.year < 10000 ∧ t.month < 100 ∧ t.day < 100 ∧
    t.hour < 100 ∧ t.minute < 100 ∧ t.second < 100

instance (t : Timestamp) : Decidable t.wellFormed := by
  unfold Timestamp.wellFormed; infer_instance

/-- Two-digit zero-padded decimal rendering (`%m`, `%d`, `%H`, `%M`, `%S`). -/
def pad2 (n : Nat) : List Char :=
  [Nat.digitChar (n / 10), Nat.digitChar (n % 10)]

/-- Four-digit decimal rendering (`%Y` for years 1000-9999). -/
def pad4 (n : Nat) : List Char :=
  [Nat.digitChar (n / 1000), Nat.digitChar (n / 100 % 10),
   Nat.digitChar (n / 10 % 10), Nat.digitChar (n % 10)]

/-- `timestamp_now` of `postgres_to_s3.py` (lines 117-122):
`datetime.now(timezone.utc).strftime("%Y%m%dT%H%M%SZ")`, applied to the
instant `t`. -/
def timestamp_now (t : Timestamp) : List Char :=
  pad4 t.year ++ pad2 t.month ++ pad2 t.day ++ ['T'] ++
    pad2 t.hour ++ pad2 t.minute ++ pad2 t.second ++ ['Z']

/-- Prefix normalisation in `export_table_to_s3` of `postgres_to_s3.py`
(line 162): `(s3_prefix.rstrip("/") + "/") if s3_prefix else ""`. -/
def normalizedKeyPfx (pfx : List Char) : List Char :=
  if pfx = [] then []
  else (pfx.reverse.dropWhile fun c => c == '/').reverse ++ ['/']

/-- The artifact key built by `export_table_to_s3` of `postgres_to_s3.py`
(line 163): `f"{prefix}{table_name}.{timestamp_now()}.csv"` for an export
whose start instant is `t`. -/
def export_key (pfx table : List Char) (t : Timestamp) : List Char :=
  normalizedKeyPfx pfx ++ table ++ ['.'] ++ timestamp_now t ++ ['.', 'c', 's', 'v']

/-- The artifact key built by `export_table_to_s3` of
`plaid_to_PostgreSQL_ETL_Detailed_Logging.py` (line 207) for an export
performed at instant `t`: `f"{self.s3_prefix}{table_name}.csv"` — the code
never reads the clock, so the key does not depend on `t`.  (`self.s3_prefix`
was already normalised to end in `/` in `__init__`.) -/
def export_table_to_s3_key_at (pfx table : List Char) (_t : Timestamp) : List Char :=
  pfx ++ table ++ ['.', 'c', 's', 'v']

/-! ## `DECIMAL(15,2)` storage of currency amounts -/

/-- Assignment of a numeric value to a `DECIMAL(15,2)` column: PostgreSQL
rounds to two fractional digits (half away from zero). -/
def pgStoreDecimal2 (q : ℚ) : ℤ :=
  if 0 ≤ q then ⌊q * 100 + 1 / 2⌋ else -⌊-q * 100 + 1 / 2⌋

/-- Reading a `DECIMAL(15,2)` column back: the stored two-fractional-digit
decimal, exactly (`psycopg2` returns it as `Decimal`). -/
def pgReadDecimal2 (c : ℤ) : ℚ :=
  (c : ℚ) / 100

/-- The amount mapping of `load_transactions`
(`extrqct_upsert_accunt.py` line 229): `t["amount"]` is passed through
unchanged into the row tuple. -/
def mapAmount (amount : ℚ) : ℚ := amount

/-- The IEEE-754 binary64 value the Plaid client hands the loader for the
JSON amount `1234.56`, as an exact rational: `2714826150374277 / 2^41`. -/
def amountFloat1234_56 : ℚ :=
  2714826150374277 / 2 ^ 41

/-! ## Lemmas about one upsert statement -/

/-- Closed form of one statement on a page whose keys are distinct: rows
whose key occurs in the page get that input's updatable columns and a fresh
`updated_at`; inputs whose key is absent from the table are appended as new
rows, in page order. -/
def applyStmt (page : List (InputRow σ β)) (now : Nat) (t : Table σ β) : Table σ β :=
  (t.map fun r =>
    match page.find? (fun i => i.key == r.key) with
    | some i => { r with vals := i.vals, updated_at := now }
    | none => r)
  ++ (page.filter fun i => !hasKey t i.key).map fun i => newRow i now

theorem applyStmt_nil (now : Nat) (t : Table σ β) : applyStmt [] now t = t := by
  simp [applyStmt]

theorem key_updateRow_ite (r : TableRow σ β) (k : String) (m : β) (now : Nat) :
    (if r.key == k then { r with vals := m, updated_at := now } else r).key = r.key := by
  split <;> rfl

theorem hasKey_updateRow (t : Table σ β) (k : String) (m : β) (now : Nat) (k' : String) :
    hasKey (updateRow t k m now) k' = hasKey t k' := by
  induction t with
  | nil => rfl
  | cons r rs ih =>
    simp only [updateRow, List.map_cons, hasKey, List.any_cons]
    simp only [updateRow, hasKey] at ih
    rw [key_updateRow_ite, ih]

theorem hasKey_append_single (t : Table σ β) (r : TableRow σ β) (k : String) :
    hasKey (t ++ [r]) k = (hasKey t k || (r.key == k)) := by
  simp [hasKey, List.any_append]

theorem applyStmt_cons_update (h : InputRow σ β) (tl : List (InputRow σ β)) (now : Nat)
    (t : Table σ β) (hmem : hasKey t h.key = true) (hnotin : ∀ i ∈ tl, ¬ i.key = h.key) :
    applyStmt (h :: tl) now t = applyStmt tl now (updateRow t h.key h.vals now) := by
  unfold applyStmt
  have hkeys : ∀ k', hasKey (updateRow t h.key h.vals now) k' = hasKey t k' :=
    hasKey_updateRow t h.key h.vals now
  congr 1
  · rw [updateRow, List.map_map]
    apply List.map_congr_left
    intro r hr
    by_cases hk : r.key = h.key
    · have hfind : tl.find? (fun i => i.key == h.key) = none := by
        rw [List.find?_eq_none]
        intro i hi
        simp only [beq_iff_eq]
        exact hnotin i hi
      have hhead : (h.key == r.key) = true := by simp [hk]
      simp [Function.comp, List.find?_cons_of_pos _ hhead, hfind, hk]
    · have hhead : (h.key == r.key) = false := by
        simp only [beq_eq_false_iff_ne, ne_eq]
        intro hc; exact hk hc.symm
      have hue : (if r.key == h.key then
          { r with vals := h.vals, updated_at := now } else r) = r := by
        simp [hk]
      simp only [Function.comp, hue, List.find?_cons_of_neg]
      rw [List.find?_cons_of_neg _ (by simp [hhead])]
  · have hstep : List.filter (fun i => !hasKey t i.key) (h :: tl)
        = tl.filter (fun i => !hasKey t i.key) :=
      List.filter_cons_of_neg (by simp [hmem])
    have hsame : tl.filter (fun i => !hasKey (updateRow t h.key h.vals now) i.key)
        = tl.filter (fun i => !hasKey t i.key) := by
      apply List.filter_congr
      intro i _
      rw [hkeys]
    rw [hstep, hsame]

theorem hasKey_of_mem (t : Table σ β) (r : TableRow σ β) (hr : r ∈ t) :
    hasKey t r.key = true := by
  simp only [hasKey, List.any_eq_true]
  exact ⟨r, hr, by simp⟩

theorem applyStmt_cons_insert (h : InputRow σ β) (tl : List (InputRow σ β)) (now : Nat)
    (t : Table σ β) (hmem : hasKey t h.key = false) (hnotin : ∀ i ∈ tl, ¬ i.key = h.key) :
    applyStmt (h :: tl) now t = applyStmt tl now (t ++ [newRow h now]) := by
  unfold applyStmt
  have hfind : tl.find? (fun i => i.key == h.key) = none := by
    rw [List.find?_eq_none]
    intro i hi
    simp only [beq_iff_eq]
    exact hnotin i hi
  have hmapeq : (t.map fun r =>
      match (h :: tl).find? (fun i => i.key == r.key) with
      | some i => { r with vals := i.vals, updated_at := now }
      | none => r)
      = t.map fun r =>
      match tl.find? (fun i => i.key == r.key) with
      | some i => { r with vals := i.vals, updated_at := now }
      | none => r := by
    apply List.map_congr_left
    intro r hr
    have hne : ¬ (h.key == r.key) = true := by
      simp only [beq_iff_eq]
      intro hc
      have hmemr := hasKey_of_mem t r hr
      rw [← hc, hmem] at hmemr
      exact Bool.false_ne_true hmemr
    have hstep : List.find? (fun i => i.key == r.key) (h :: tl)
        = List.find? (fun i => i.key == r.key) tl :=
      List.find?_cons_of_neg tl hne
    rw [hstep]
  have hfilterhead : List.filter (fun i => !hasKey t i.key) (h :: tl)
      = h :: tl.filter (fun i => !hasKey t i.key) :=
    List.filter_cons_of_pos (by simp [hmem])
  have hfiltereq : tl.filter (fun i => !hasKey (t ++ [newRow h now]) i.key)
      = tl.filter (fun i => !hasKey t i.key) := by
    apply List.filter_congr
    intro i hi
    rw [hasKey_append_single]
    have hkne : ((newRow h now).key == i.key) = false := by
      simp only [newRow, beq_eq_false_iff_ne, ne_eq]
      intro hc
      exact hnotin i hi hc.symm
    simp [hkne]
  have hlast : List.map (fun r =>
      match tl.find? (fun i => i.key == r.key) with
      | some i => { r with vals := i.vals, updated_at := now }
      | none => r) [newRow h now] = [newRow h now] := by
    simp only [List.map_cons, List.map_nil]
    rw [show ((newRow h now).key) = h.key from rfl, hfind]
  rw [hmapeq, hfilterhead, hfiltereq, List.map_append, hlast]
  simp [List.append_assoc]

theorem upsertFold_ok (fkOk : σ → Bool) (now : Nat) (page : List (InputRow σ β)) :
    ∀ (t : Table σ β) (flags : List Bool) (aff : List String),
    (page.map fun i => i.key).Nodup →
    (∀ i ∈ page, i.key ∉ aff) →
    (∀ i ∈ page, hasKey t i.key = false → fkOk i.fixed = true) →
    List.foldlM (upsertRowStep fkOk now) (t, flags, aff) page =
      .ok (applyStmt page now t, flags ++ page.map (fun i => !hasKey t i.key),
        (page.map fun i => i.key).reverse ++ aff) := by
  induction page with
  | nil =>
    intro t flags aff _ _ _
    simp only [List.foldlM_nil, applyStmt_nil, List.map_nil, List.append_nil,
      List.reverse_nil, List.nil_append]
    rfl
  | cons h tl ih =>
    intro t flags aff hnd haff hfk
    rw [List.map_cons] at hnd
    have hpair := List.nodup_cons.mp hnd
    have hkeynotin : h.key ∉ tl.map fun i => i.key := hpair.1
    have hnd' : (tl.map fun i => i.key).Nodup := hpair.2
    have hnotin : ∀ i ∈ tl, ¬ i.key = h.key := by
      intro i hi hc
      exact hkeynotin (List.mem_map.mpr ⟨i, hi, hc⟩)
    have haffh : h.key ∉ aff := haff h (List.mem_cons_self h tl)
    have haff' : ∀ i ∈ tl, i.key ∉ (h.key :: aff) := by
      intro i hi
      simp only [List.mem_cons, not_or]
      exact ⟨hnotin i hi, haff i (List.mem_cons_of_mem h hi)⟩
    rw [List.foldlM_cons]
    cases hk : hasKey t h.key with
    | true =>
      have hstep : upsertRowStep fkOk now (t, flags, aff) h =
          .ok (updateRow t h.key h.vals now, flags ++ [false], h.key :: aff) := by
        simp [upsertRowStep, haffh, hk]
      rw [hstep]
      have hbind : ∀ (st : Table σ β × List Bool × List String),
          (Except.ok st >>= fun st' =>
            List.foldlM (upsertRowStep fkOk now) st' tl) =
          List.foldlM (upsertRowStep fkOk now) st tl := fun _ => rfl
      rw [hbind]
      rw [ih (updateRow t h.key h.vals now) (flags ++ [false]) (h.key :: aff) hnd' haff'
        (by
          intro i hi
          rw [hasKey_updateRow]
          exact hfk i (List.mem_cons_of_mem h hi))]
      rw [applyStmt_cons_update h tl now t hk hnotin]
      have hflags : tl.map (fun i => !hasKey (updateRow t h.key h.vals now) i.key)
          = tl.map fun i => !hasKey t i.key := by
        apply List.map_congr_left
        intro i _
        rw [hasKey_updateRow]
      rw [hflags]
      simp [hk, List.append_assoc]
    | false =>
      have hfkh : fkOk h.fixed = true := hfk h (List.mem_cons_self h tl) hk
      have hstep : upsertRowStep fkOk now (t, flags, aff) h =
          .ok (t ++ [newRow h now], flags ++ [true], h.key :: aff) := by
        simp [upsertRowStep, haffh, hk, hfkh]
      rw [hstep]
      have hbind : ∀ (st : Table σ β × List Bool × List String),
          (Except.ok st >>= fun st' =>
            List.foldlM (upsertRowStep fkOk now) st' tl) =
          List.foldlM (upsertRowStep fkOk now) st tl := fun _ => rfl
      rw [hbind]
      have hkeys : ∀ i ∈ tl, hasKey (t ++ [newRow h now]) i.key = hasKey t i.key := by
        intro i hi
        rw [hasKey_append_single]
        have hkne : ((newRow h now).key == i.key) = false := by
          simp only [newRow, beq_eq_false_iff_ne, ne_eq]
          intro hc
          exact hnotin i hi hc.symm
        simp [hkne]
      rw [ih (t ++ [newRow h now]) (flags ++ [true]) (h.key :: aff) hnd' haff'
        (by
          intro i hi
          rw [hkeys i hi]
          exact hfk i (List.mem_cons_of_mem h hi))]
      rw [applyStmt_cons_insert h tl now t hk hnotin]
      have hflags : tl.map (fun i => !hasKey (t ++ [newRow h now]) i.key)
          = tl.map fun i => !hasKey t i.key := by
        apply List.map_congr_left
        intro i hi
        rw [hkeys i hi]
      rw [hflags]
      simp [hk, List.append_assoc]

theorem execStatement_ok (fkOk : σ → Bool) (now : Nat) (t : Table σ β)
    (page : List (InputRow σ β)) (hnd : (page.map fun i => i.key).Nodup)
    (hfk : ∀ i ∈ page, hasKey t i.key = false → fkOk i.fixed = true) :
    execStatement fkOk now t page =
      .ok (applyStmt page now t, page.map fun i => !hasKey t i.key) := by
  unfold execStatement
  rw [upsertFold_ok fkOk now page t [] [] hnd (by intro i _; simp) hfk]
  rfl

theorem hasKey_applyStmt_of_present (page : List (InputRow σ β)) (now : Nat)
    (t : Table σ β) (k : String) (hk : hasKey t k = true) :
    hasKey (applyStmt page now t) k = true := by
  unfold applyStmt
  rw [hasKey, List.any_append]
  have : (t.map fun r =>
      match page.find? (fun i => i.key == r.key) with
      | some i => { r with vals := i.vals, updated_at := now }
      | none => r).any (fun r => r.key == k) = true := by
    rw [List.any_map]
    rw [hasKey] at hk
    rw [List.any_eq_true] at hk ⊢
    obtain ⟨r, hr, hrk⟩ := hk
    refine ⟨r, hr, ?_⟩
    simp only [Function.comp]
    split <;> simpa using hrk
  rw [this]
  rfl

theorem hasKey_applyStmt_of_mem (page : List (InputRow σ β)) (now : Nat)
    (t : Table σ β) (i : InputRow σ β) (hi : i ∈ page) :
    hasKey (applyStmt page now t) i.key = true := by
  cases hk : hasKey t i.key with
  | true => exact hasKey_applyStmt_of_present page now t i.key hk
  | false =>
    unfold applyStmt
    rw [hasKey, List.any_append]
    have hright : ((page.filter fun j => !hasKey t j.key).map fun j => newRow j now).any
        (fun r => r.key == i.key) = true := by
      rw [List.any_eq_true]
      refine ⟨newRow i now, List.mem_map.mpr
        ⟨i, List.mem_filter.mpr ⟨hi, by simp [hk]⟩, rfl⟩, by simp [newRow]⟩
    rw [hright]
    simp

theorem hasKey_applyStmt_of_absent (page : List (InputRow σ β)) (now : Nat)
    (t : Table σ β) (k : String) (hk : hasKey t k = false)
    (hnotin : ∀ i ∈ page, ¬ i.key = k) :
    hasKey (applyStmt page now t) k = false := by
  unfold applyStmt
  rw [hasKey, List.any_append]
  have h1 : (t.map fun r =>
      match page.find? (fun i => i.key == r.key) with
      | some i => { r with vals := i.vals, updated_at := now }
      | none => r).any (fun r => r.key == k) = false := by
    rw [List.any_eq_false]
    intro x hx
    obtain ⟨r, hr, rfl⟩ := List.mem_map.mp hx
    rw [hasKey, List.any_eq_false] at hk
    have := hk r hr
    split <;> simpa using this
  have h2 : ((page.filter fun j => !hasKey t j.key).map fun j => newRow j now).any
      (fun r => r.key == k) = false := by
    rw [List.any_eq_false]
    intro x hx
    obtain ⟨j, hj, rfl⟩ := List.mem_map.mp hx
    have hjp : j ∈ page := (List.mem_filter.mp hj).1
    simp [newRow, hnotin j hjp]
  rw [h1, h2]
  rfl

theorem applyStmt_append (p q : List (InputRow σ β)) (now : Nat) (t : Table σ β)
    (hnd : ((p ++ q).map fun i => i.key).Nodup) :
    applyStmt (p ++ q) now t = applyStmt q now (applyStmt p now t) := by
  induction p generalizing t with
  | nil => rw [List.nil_append, applyStmt_nil]
  | cons h tl ih =>
    rw [List.cons_append, List.map_cons] at hnd
    have hpair := List.nodup_cons.mp hnd
    have hnotin_all : ∀ i ∈ tl ++ q, ¬ i.key = h.key := by
      intro i hi hc
      exact hpair.1 (List.mem_map.mpr ⟨i, hi, hc⟩)
    have hnotin_tl : ∀ i ∈ tl, ¬ i.key = h.key := fun i hi =>
      hnotin_all i (List.mem_append.mpr (Or.inl hi))
    rw [List.cons_append]
    cases hk : hasKey t h.key with
    | true =>
      rw [applyStmt_cons_update h (tl ++ q) now t hk hnotin_all,
        applyStmt_cons_update h tl now t hk hnotin_tl]
      exact ih (updateRow t h.key h.vals now) hpair.2
    | false =>
      rw [applyStmt_cons_insert h (tl ++ q) now t hk hnotin_all,
        applyStmt_cons_insert h tl now t hk hnotin_tl]
      exact ih (t ++ [newRow h now]) hpair.2

theorem toChunksFuel_nil (n : Nat) : toChunksFuel n ([] : List α) = [] := by
  cases n <;> rfl

theorem toChunksFuel_cons (n : Nat) (a : α) (as : List α) :
    toChunksFuel (n + 1) (a :: as) =
      (a :: as).take pageSizeEV :: toChunksFuel n ((a :: as).drop pageSizeEV) := rfl

theorem toChunksFuel_flatten (n : Nat) : ∀ (l : List α), l.length ≤ n →
    (toChunksFuel n l).flatten = l := by
  induction n with
  | zero =>
    intro l hl
    rw [Nat.le_zero, List.length_eq_zero] at hl
    subst hl
    rfl
  | succ n ih =>
    intro l hl
    cases l with
    | nil => rfl
    | cons a as =>
      rw [toChunksFuel_cons, List.flatten_cons]
      rw [ih ((a :: as).drop pageSizeEV) (by
        rw [List.length_drop]
        have hps : pageSizeEV = 100 := rfl
        simp only [List.length_cons] at hl ⊢
        omega)]
      exact List.take_append_drop pageSizeEV (a :: as)

theorem toChunks_flatten (l : List α) : (toChunks l).flatten = l :=
  toChunksFuel_flatten l.length l le_rfl

theorem toChunks_single (l : List α) (hne : l ≠ []) (hlen : l.length ≤ pageSizeEV) :
    toChunks l = [l] := by
  cases l with
  | nil => exact absurd rfl hne
  | cons a as =>
    rw [toChunks, List.length_cons, toChunksFuel_cons]
    rw [List.take_of_length_le (by simpa using hlen),
      List.drop_eq_nil_of_le (by simpa using hlen), toChunksFuel_nil]

theorem execPages_nil (fkOk : σ → Bool) (now : Nat) (t : Table σ β) :
    execPages fkOk now t [] = .ok (t, []) := rfl

theorem execPages_one (fkOk : σ → Bool) (now : Nat) (t : Table σ β)
    (p : List (InputRow σ β)) : execPages fkOk now t [p] = execStatement fkOk now t p := rfl

theorem execPages_cons2 (fkOk : σ → Bool) (now : Nat) (t : Table σ β)
    (p q : List (InputRow σ β)) (ps : List (List (InputRow σ β))) :
    execPages fkOk now t (p :: q :: ps) =
      match execStatement fkOk now t p with
      | .error e => .error e
      | .ok st => execPages fkOk now st.1 (q :: ps) := rfl

theorem execPages_ok_exists (fkOk : σ → Bool) (now : Nat) :
    ∀ (chunks : List (List (InputRow σ β))) (t : Table σ β),
    ((chunks.flatten.map fun i => i.key)).Nodup →
    (∀ i ∈ chunks.flatten, hasKey t i.key = false → fkOk i.fixed = true) →
    ∃ flags, execPages fkOk now t chunks = .ok (applyStmt chunks.flatten now t, flags) := by
  intro chunks
  induction chunks with
  | nil =>
    intro t _ _
    exact ⟨[], by rw [execPages_nil, List.flatten_nil, applyStmt_nil]⟩
  | cons p ps ih =>
    intro t hnd hfk
    cases ps with
    | nil =>
      refine ⟨p.map fun i => !hasKey t i.key, ?_⟩
      rw [execPages_one, List.flatten_cons, List.flatten_nil, List.append_nil] at *
      exact execStatement_ok fkOk now t p (by simpa using hnd) (by simpa using hfk)
    | cons q ps' =>
      rw [List.flatten_cons] at hnd hfk ⊢
      have hndp : (p.map fun i => i.key).Nodup := by
        rw [List.map_append] at hnd
        exact hnd.of_append_left
      have hndr : ((q :: ps').flatten.map fun i => i.key).Nodup := by
        rw [List.map_append] at hnd
        exact hnd.of_append_right
      have hstmt := execStatement_ok fkOk now t p hndp (by
        intro i hi
        exact hfk i (List.mem_append.mpr (Or.inl hi)))
      rw [execPages_cons2, hstmt]
      have hfk' : ∀ i ∈ (q :: ps').flatten, hasKey (applyStmt p now t) i.key = false →
          fkOk i.fixed = true := by
        intro i hi hk
        apply hfk i (List.mem_append.mpr (Or.inr hi))
        cases hko : hasKey t i.key with
        | false => rfl
        | true =>
          rw [hasKey_applyStmt_of_present p now t i.key hko] at hk
          exact absurd hk (by simp)
      obtain ⟨flags, hrec⟩ := ih (applyStmt p now t) hndr hfk'
      refine ⟨flags, ?_⟩
      simp only []
      rw [hrec, applyStmt_append p ((q :: ps').flatten) now t (by rw [List.map_append] at hnd; rwa [List.map_append])]

theorem execPages_allPresent (fkOk : σ → Bool) (now : Nat) :
    ∀ (chunks : List (List (InputRow σ β))) (t : Table σ β),
    ((chunks.flatten.map fun i => i.key)).Nodup →
    (∀ i ∈ chunks.flatten, hasKey t i.key = true) →
    ∃ flags, execPages fkOk now t chunks = .ok (applyStmt chunks.flatten now t, flags) ∧
      flags.count true = 0 := by
  intro chunks
  induction chunks with
  | nil =>
    intro t _ _
    exact ⟨[], by rw [execPages_nil, List.flatten_nil, applyStmt_nil], rfl⟩
  | cons p ps ih =>
    intro t hnd hpresent
    cases ps with
    | nil =>
      refine ⟨p.map fun i => !hasKey t i.key, ?_, ?_⟩
      · rw [execPages_one, List.flatten_cons, List.flatten_nil, List.append_nil] at *
        exact execStatement_ok fkOk now t p (by simpa using hnd) (by
          intro i hi hk
          rw [hpresent i hi] at hk
          exact absurd hk (by simp))
      · rw [List.count_eq_zero]
        intro hmem
        obtain ⟨i, hi, hflag⟩ := List.mem_map.mp hmem
        rw [List.flatten_cons, List.flatten_nil, List.append_nil] at hpresent
        rw [hpresent i hi] at hflag
        exact absurd hflag (by simp)
    | cons q ps' =>
      rw [List.flatten_cons] at hnd hpresent ⊢
      have hndp : (p.map fun i => i.key).Nodup := by
        rw [List.map_append] at hnd
        exact hnd.of_append_left
      have hndr : ((q :: ps').flatten.map fun i => i.key).Nodup := by
        rw [List.map_append] at hnd
        exact hnd.of_append_right
      have hstmt := execStatement_ok fkOk now t p hndp (by
        intro i hi hk
        rw [hpresent i (List.mem_append.mpr (Or.inl hi))] at hk
        exact absurd hk (by simp))
      rw [execPages_cons2, hstmt]
      have hpres' : ∀ i ∈ (q :: ps').flatten, hasKey (applyStmt p now t) i.key = true := by
        intro i hi
        exact hasKey_applyStmt_of_present p now t i.key
          (hpresent i (List.mem_append.mpr (Or.inr hi)))
      obtain ⟨flags, hrec, hcount⟩ := ih (applyStmt p now t) hndr hpres'
      refine ⟨flags, ?_, hcount⟩
      simp only []
      rw [hrec, applyStmt_append p ((q :: ps').flatten) now t (by rw [List.map_append] at hnd; rwa [List.map_append])]

theorem upsertFold_error (fkOk : σ → Bool) (now : Nat) (page : List (InputRow σ β)) :
    ∀ (t : Table σ β) (flags : List Bool) (aff : List String),
    (page.map fun i => i.key).Nodup →
    (∀ i ∈ page, i.key ∉ aff) →
    (∃ i ∈ page, hasKey t i.key = false ∧ fkOk i.fixed = false) →
    ∃ e, List.foldlM (upsertRowStep fkOk now) (t, flags, aff) page = .error e := by
  induction page with
  | nil =>
    intro t flags aff _ _ hwit
    obtain ⟨i, hi, _⟩ := hwit
    exact absurd hi (List.not_mem_nil i)
  | cons h tl ih =>
    intro t flags aff hnd haff hwit
    rw [List.map_cons] at hnd
    have hpair := List.nodup_cons.mp hnd
    have hnotin : ∀ i ∈ tl, ¬ i.key = h.key := by
      intro i hi hc
      exact hpair.1 (List.mem_map.mpr ⟨i, hi, hc⟩)
    have haffh : h.key ∉ aff := haff h (List.mem_cons_self h tl)
    have haff' : ∀ i ∈ tl, i.key ∉ (h.key :: aff) := by
      intro i hi
      simp only [List.mem_cons, not_or]
      exact ⟨hnotin i hi, haff i (List.mem_cons_of_mem h hi)⟩
    rw [List.foldlM_cons]
    by_cases hbad : hasKey t h.key = false ∧ fkOk h.fixed = false
    · have hstep : upsertRowStep fkOk now (t, flags, aff) h = .error .fkViolation := by
        simp [upsertRowStep, haffh, hbad.1, hbad.2]
      rw [hstep]
      exact ⟨.fkViolation, rfl⟩
    · have hwit' : ∃ i ∈ tl, hasKey t i.key = false ∧ fkOk i.fixed = false := by
        obtain ⟨i, hi, hik, hif⟩ := hwit
        rcases List.mem_cons.mp hi with hih | hitl
        · exact absurd ⟨by rw [← hih]; exact hik, by rw [← hih]; exact hif⟩ hbad
        · exact ⟨i, hitl, hik, hif⟩
      cases hk : hasKey t h.key with
      | true =>
        have hstep : upsertRowStep fkOk now (t, flags, aff) h =
            .ok (updateRow t h.key h.vals now, flags ++ [false], h.key :: aff) := by
          simp [upsertRowStep, haffh, hk]
        rw [hstep]
        have hbind : ∀ (st : Table σ β × List Bool × List String),
            (Except.ok st >>= fun st' =>
              List.foldlM (upsertRowStep fkOk now) st' tl) =
            List.foldlM (upsertRowStep fkOk now) st tl := fun _ => rfl
        rw [hbind]
        apply ih (updateRow t h.key h.vals now) (flags ++ [false]) (h.key :: aff)
          hpair.2 haff'
        obtain ⟨i, hi, hik, hif⟩ := hwit'
        exact ⟨i, hi, by rw [hasKey_updateRow]; exact hik, hif⟩
      | false =>
        have hfkh : fkOk h.fixed = true := by
          cases hf : fkOk h.fixed with
          | true => rfl
          | false => exact absurd ⟨hk, hf⟩ hbad
        have hstep : upsertRowStep fkOk now (t, flags, aff) h =
            .ok (t ++ [newRow h now], flags ++ [true], h.key :: aff) := by
          simp [upsertRowStep, haffh, hk, hfkh]
        rw [hstep]
        have hbind : ∀ (st : Table σ β × List Bool × List String),
            (Except.ok st >>= fun st' =>
              List.foldlM (upsertRowStep fkOk now) st' tl) =
            List.foldlM (upsertRowStep fkOk now) st tl := fun _ => rfl
        rw [hbind]
        apply ih (t ++ [newRow h now]) (flags ++ [true]) (h.key :: aff) hpair.2 haff'
        obtain ⟨i, hi, hik, hif⟩ := hwit'
        refine ⟨i, hi, ?_, hif⟩
        rw [hasKey_append_single]
        have hkne : ((newRow h now).key == i.key) = false := by
          simp only [newRow, beq_eq_false_iff_ne, ne_eq]
          intro hc
          exact hnotin i hi hc.symm
        simp [hkne, hik]

theorem execStatement_error (fkOk : σ → Bool) (now : Nat) (t : Table σ β)
    (page : List (InputRow σ β)) (hnd : (page.map fun i => i.key).Nodup)
    (hwit : ∃ i ∈ page, hasKey t i.key = false ∧ fkOk i.fixed = false) :
    ∃ e, execStatement fkOk now t page = .error e := by
  obtain ⟨e, he⟩ := upsertFold_error fkOk now page t [] [] hnd (by intro i _; simp) hwit
  refine ⟨e, ?_⟩
  unfold execStatement
  rw [he]
  rfl

theorem execPages_error (fkOk : σ → Bool) (now : Nat) :
    ∀ (chunks : List (List (InputRow σ β))) (t : Table σ β),
    ((chunks.flatten.map fun i => i.key)).Nodup →
    (∃ i ∈ chunks.flatten, hasKey t i.key = false ∧ fkOk i.fixed = false) →
    ∃ e, execPages fkOk now t chunks = .error e := by
  intro chunks
  induction chunks with
  | nil =>
    intro t _ hwit
    obtain ⟨i, hi, _⟩ := hwit
    rw [List.flatten_nil] at hi
    exact absurd hi (List.not_mem_nil i)
  | cons p ps ih =>
    intro t hnd hwit
    rw [List.flatten_cons] at hnd hwit
    have hndp : (p.map fun i => i.key).Nodup := by
      rw [List.map_append] at hnd
      exact hnd.of_append_left
    cases ps with
    | nil =>
      rw [execPages_one]
      apply execStatement_error fkOk now t p hndp
      obtain ⟨i, hi, hprop⟩ := hwit
      rw [List.flatten_nil, List.append_nil] at hi
      exact ⟨i, hi, hprop⟩
    | cons q ps' =>
      rw [execPages_cons2]
      by_cases hp : ∃ i ∈ p, hasKey t i.key = false ∧ fkOk i.fixed = false
      · obtain ⟨e, he⟩ := execStatement_error fkOk now t p hndp hp
        rw [he]
        exact ⟨e, rfl⟩
      · have hfkp : ∀ i ∈ p, hasKey t i.key = false → fkOk i.fixed = true := by
          intro i hi hk
          cases hf : fkOk i.fixed with
          | true => rfl
          | false => exact absurd ⟨i, hi, hk, hf⟩ hp
        rw [execStatement_ok fkOk now t p hndp hfkp]
        have hwit' : ∃ i ∈ (q :: ps').flatten,
            hasKey (applyStmt p now t) i.key = false ∧ fkOk i.fixed = false := by
          obtain ⟨i, hi, hik, hif⟩ := hwit
          rcases List.mem_append.mp hi with hip | hir
          · exact absurd ⟨i, hip, hik, hif⟩ hp
          · refine ⟨i, hir, ?_, hif⟩
            apply hasKey_applyStmt_of_absent p now t i.key hik
            intro j hj hc
            rw [List.map_append] at hnd
            exact List.disjoint_of_nodup_append hnd
              (List.mem_map.mpr ⟨j, hj, rfl⟩)
              (List.mem_map.mpr ⟨i, hir, hc.symm⟩)
        exact ih (applyStmt p now t) (by
          rw [List.map_append] at hnd
          exact hnd.of_append_right) hwit'

theorem count_true_map (g : α → Bool) (l : List α) :
    (l.map g).count true = (l.filter g).length := by
  induction l with
  | nil => rfl
  | cons a as ih =>
    rw [List.map_cons, List.filter_cons]
    cases hg : g a with
    | true =>
      rw [if_pos rfl, List.length_cons, ← ih]
      rw [List.count_cons]
      simp
    | false =>
      rw [if_neg (by simp), ← ih]
      rw [List.count_cons]
      simp

theorem length_filter_add_length_filter_not (p : α → Bool) (l : List α) :
    (l.filter p).length + (l.filter fun a => !p a).length = l.length := by
  induction l with
  | nil => rfl
  | cons a as ih =>
    rw [List.filter_cons, List.filter_cons]
    cases hp : p a with
    | true =>
      simp only [hp, if_pos, Bool.not_true, Bool.false_eq_true, if_false, List.length_cons]
      omega
    | false =>
      simp only [hp, Bool.false_eq_true, if_false, Bool.not_false, if_pos, List.length_cons]
      omega

theorem loadCore_ok_exists (fkOk : σ → Bool) (t : Table σ β) (batch : List (InputRow σ β))
    (now : Nat) (hnd : (batch.map fun i => i.key).Nodup)
    (hfk : ∀ i ∈ batch, hasKey t i.key = false → fkOk i.fixed = true) :
    ∃ ins upd, loadCore fkOk t batch now = .ok (applyStmt batch now t, ins, upd) := by
  obtain ⟨flags, hex⟩ := execPages_ok_exists fkOk now (toChunks batch) t
    (by rw [toChunks_flatten]; exact hnd)
    (by rw [toChunks_flatten]; exact hfk)
  rw [toChunks_flatten] at hex
  refine ⟨flags.count true, flags.length - flags.count true, ?_⟩
  unfold loadCore
  rw [hex]
  rfl

theorem loadCore_allPresent (fkOk : σ → Bool) (t : Table σ β) (batch : List (InputRow σ β))
    (now : Nat) (hnd : (batch.map fun i => i.key).Nodup)
    (hpresent : ∀ i ∈ batch, hasKey t i.key = true) :
    ∃ upd, loadCore fkOk t batch now = .ok (applyStmt batch now t, 0, upd) := by
  obtain ⟨flags, hex, hcount⟩ := execPages_allPresent fkOk now (toChunks batch) t
    (by rw [toChunks_flatten]; exact hnd)
    (by rw [toChunks_flatten]; exact hpresent)
  rw [toChunks_flatten] at hex
  refine ⟨flags.length - flags.count true, ?_⟩
  unfold loadCore
  rw [hex]
  show Except.ok (applyStmt batch now t, flags.count true,
    flags.length - flags.count true) = _
  rw [hcount]

theorem loadCore_single_page (fkOk : σ → Bool) (t : Table σ β) (batch : List (InputRow σ β))
    (now : Nat) (hne : batch ≠ []) (hlen : batch.length ≤ pageSizeEV)
    (hnd : (batch.map fun i => i.key).Nodup)
    (hfk : ∀ i ∈ batch, hasKey t i.key = false → fkOk i.fixed = true) :
    loadCore fkOk t batch now = .ok (applyStmt batch now t,
      (batch.filter fun i => !hasKey t i.key).length,
      (batch.filter fun i => hasKey t i.key).length) := by
  unfold loadCore
  rw [toChunks_single batch hne hlen, execPages_one,
    execStatement_ok fkOk now t batch hnd hfk]
  have hcount : (batch.map fun i => !hasKey t i.key).count true
      = (batch.filter fun i => !hasKey t i.key).length :=
    count_true_map (fun i => !hasKey t i.key) batch
  have hlen2 : (batch.map fun i => !hasKey t i.key).length = batch.length :=
    List.length_map batch fun i => !hasKey t i.key
  have hsum := length_filter_add_length_filter_not (fun i => !hasKey t i.key) batch
  show Except.ok (applyStmt batch now t,
    (batch.map fun i => !hasKey t i.key).count true,
    (batch.map fun i => !hasKey t i.key).length -
      (batch.map fun i => !hasKey t i.key).count true) = _
  rw [hcount, hlen2]
  have hfilter : (batch.filter fun i => !(!hasKey t i.key)) = batch.filter fun i => hasKey t i.key := by
    apply List.filter_congr
    intro i _
    simp
  rw [hfilter] at hsum
  have : batch.length - (batch.filter fun i => !hasKey t i.key).length
      = (batch.filter fun i => hasKey t i.key).length := by omega
  rw [this]

theorem loadCore_error (fkOk : σ → Bool) (t : Table σ β) (batch : List (InputRow σ β))
    (now : Nat) (hnd : (batch.map fun i => i.key).Nodup)
    (hwit : ∃ i ∈ batch, hasKey t i.key = false ∧ fkOk i.fixed = false) :
    ∃ e, loadCore fkOk t batch now = .error e := by
  obtain ⟨e, he⟩ := execPages_error fkOk now (toChunks batch) t
    (by rw [toChunks_flatten]; exact hnd)
    (by rw [toChunks_flatten]; exact hwit)
  refine ⟨e, ?_⟩
  unfold loadCore
  rw [he]
  rfl

theorem find?_key_unique (batch : List (InputRow σ β))
    (hnd : (batch.map fun i => i.key).Nodup) (i : InputRow σ β) (hi : i ∈ batch) :
    batch.find? (fun j => j.key == i.key) = some i := by
  induction batch with
  | nil => exact absurd hi (List.not_mem_nil i)
  | cons h tl ih =>
    rw [List.map_cons] at hnd
    have hpair := List.nodup_cons.mp hnd
    rcases List.mem_cons.mp hi with hih | hitl
    · subst hih
      exact List.find?_cons_of_pos tl (by simp)
    · have hne : ¬ (h.key == i.key) = true := by
        simp only [beq_iff_eq]
        intro hc
        exact hpair.1 (List.mem_map.mpr ⟨i, hitl, hc.symm⟩)
      rw [List.find?_cons_of_neg tl hne]
      exact ih hpair.2 hitl

/-- The columns of a stored row other than `updated_at`. -/
def rowCore (r : TableRow σ β) : String × σ × β × Nat :=
  (r.key, r.fixed, r.vals, r.created_at)

theorem vals_of_applyStmt (batch : List (InputRow σ β)) (now : Nat) (t : Table σ β)
    (hnd : (batch.map fun i => i.key).Nodup) (r : TableRow σ β)
    (hr : r ∈ applyStmt batch now t) (i : InputRow σ β)
    (hfind : batch.find? (fun j => j.key == r.key) = some i) :
    r.vals = i.vals := by
  unfold applyStmt at hr
  rcases List.mem_append.mp hr with hmap | hins
  · obtain ⟨r0, hr0, hr0eq⟩ := List.mem_map.mp hmap
    cases hf : batch.find? (fun j => j.key == r0.key) with
    | some i0 =>
      rw [hf] at hr0eq
      have hkey : r.key = r0.key := by rw [← hr0eq]
      rw [hkey, hf] at hfind
      cases hfind
      rw [← hr0eq]
    | none =>
      rw [hf] at hr0eq
      have hkey : r.key = r0.key := by rw [← hr0eq]
      rw [hkey, hf] at hfind
      cases hfind
  · obtain ⟨i0, hi0, hi0eq⟩ := List.mem_map.mp hins
    have hi0b : i0 ∈ batch := (List.mem_filter.mp hi0).1
    have hkey : r.key = i0.key := by rw [← hi0eq]; rfl
    rw [hkey, find?_key_unique batch hnd i0 hi0b] at hfind
    cases hfind
    rw [← hi0eq]
    rfl

theorem applyStmt_length_allPresent (batch : List (InputRow σ β)) (now : Nat)
    (t : Table σ β) (hpresent : ∀ i ∈ batch, hasKey t i.key = true) :
    (applyStmt batch now t).length = t.length := by
  unfold applyStmt
  have hfilter : (batch.filter fun i => !hasKey t i.key) = [] := by
    rw [List.filter_eq_nil_iff]
    intro i hi
    simp [hpresent i hi]
  rw [hfilter, List.map_nil, List.append_nil, List.length_map]

theorem applyStmt_rowCore_allPresent (batch : List (InputRow σ β)) (now : Nat)
    (t : Table σ β) (hpresent : ∀ i ∈ batch, hasKey t i.key = true)
    (hvals : ∀ r ∈ t, ∀ i, batch.find? (fun j => j.key == r.key) = some i →
      r.vals = i.vals) :
    (applyStmt batch now t).map rowCore = t.map rowCore := by
  unfold applyStmt
  have hfilter : (batch.filter fun i => !hasKey t i.key) = [] := by
    rw [List.filter_eq_nil_iff]
    intro i hi
    simp [hpresent i hi]
  rw [hfilter, List.map_nil, List.append_nil, List.map_map]
  apply List.map_congr_left
  intro r hr
  simp only [Function.comp]
  cases hf : batch.find? (fun j => j.key == r.key) with
  | some i =>
    have := hvals r hr i hf
    simp [rowCore, this]
  | none => rfl

theorem loadCore_idem (fkOk : σ → Bool) (t : Table σ β) (batch : List (InputRow σ β))
    (now1 now2 : Nat) (hnd : (batch.map fun i => i.key).Nodup)
    (hfk : ∀ i ∈ batch, hasKey t i.key = false → fkOk i.fixed = true) :
    ∃ T1 i1 u1 u2, loadCore fkOk t batch now1 = .ok (T1, i1, u1) ∧
      loadCore fkOk T1 batch now2 = .ok (applyStmt batch now2 T1, 0, u2) ∧
      (applyStmt batch now2 T1).length = T1.length ∧
      (applyStmt batch now2 T1).map rowCore = T1.map rowCore := by
  obtain ⟨ins, upd, hrun1⟩ := loadCore_ok_exists fkOk t batch now1 hnd hfk
  have hpresent : ∀ i ∈ batch, hasKey (applyStmt batch now1 t) i.key = true := by
    intro i hi
    exact hasKey_applyStmt_of_mem batch now1 t i hi
  obtain ⟨u2, hrun2⟩ := loadCore_allPresent fkOk (applyStmt batch now1 t) batch now2
    hnd hpresent
  refine ⟨applyStmt batch now1 t, ins, upd, u2, hrun1, hrun2, ?_, ?_⟩
  · exact applyStmt_length_allPresent batch now2 (applyStmt batch now1 t) hpresent
  · exact applyStmt_rowCore_allPresent batch now2 (applyStmt batch now1 t) hpresent
      (fun r hr i hf => vals_of_applyStmt batch now1 t hnd r hr i hf)

theorem digitChar_inj : ∀ a, a < 10 → ∀ b, b < 10 →
    Nat.digitChar a = Nat.digitChar b → a = b := by decide

theorem pad2_inj (a b : Nat) (ha : a < 100) (hb : b < 100) (h : pad2 a = pad2 b) :
    a = b := by
  simp only [pad2, List.cons.injEq, and_true] at h
  obtain ⟨h1, h2⟩ := h
  have e1 := digitChar_inj _ (by omega) _ (by omega) h1
  have e2 := digitChar_inj _ (by omega) _ (by omega) h2
  omega

theorem pad4_inj (a b : Nat) (ha : a < 10000) (hb : b < 10000) (h : pad4 a = pad4 b) :
    a = b := by
  simp only [pad4, List.cons.injEq, and_true] at h
  obtain ⟨h1, h2, h3, h4⟩ := h
  have e1 := digitChar_inj _ (by omega) _ (by omega) h1
  have e2 := digitChar_inj _ (by omega) _ (by omega) h2
  have e3 := digitChar_inj _ (by omega) _ (by omega) h3
  have e4 := digitChar_inj _ (by omega) _ (by omega) h4
  omega

theorem timestamp_now_inj (t1 t2 : Timestamp) (h1 : t1.wellFormed) (h2 : t2.wellFormed)
    (heq : timestamp_now t1 = timestamp_now t2) : t1 = t2 := by
  obtain ⟨hy1a, hy1b, hm1, hd1, hh1, hmin1, hs1⟩ := h1
  obtain ⟨hy2a, hy2b, hm2, hd2, hh2, hmin2, hs2⟩ := h2
  simp only [timestamp_now, pad4, pad2, List.cons_append, List.nil_append,
    List.cons.injEq, and_true] at heq
  obtain ⟨y1, y2, y3, y4, m1, m2, d1, d2, _, hh1e, hh2e, mi1, mi2, s1, s2⟩ := heq
  have ey : t1.year = t2.year := by
    have e1 := digitChar_inj _ (by omega) _ (by omega) y1
    have e2 := digitChar_inj _ (by omega) _ (by omega) y2
    have e3 := digitChar_inj _ (by omega) _ (by omega) y3
    have e4 := digitChar_inj _ (by omega) _ (by omega) y4
    omega
  have em : t1.month = t2.month := by
    have e1 := digitChar_inj _ (by omega) _ (by omega) m1
    have e2 := digitChar_inj _ (by omega) _ (by omega) m2
    omega
  have ed : t1.day = t2.day := by
    have e1 := digitChar_inj _ (by omega) _ (by omega) d1
    have e2 := digitChar_inj _ (by omega) _ (by omega) d2
    omega
  have eh : t1.hour = t2.hour := by
    have e1 := digitChar_inj _ (by omega) _ (by omega) hh1e
    have e2 := digitChar_inj _ (by omega) _ (by omega) hh2e
    omega
  have emin : t1.minute = t2.minute := by
    have e1 := digitChar_inj _ (by omega) _ (by omega) mi1
    have e2 := digitChar_inj _ (by omega) _ (by omega) mi2
    omega
  have es : t1.second = t2.second := by
    have e1 := digitChar_inj _ (by omega) _ (by omega) s1
    have e2 := digitChar_inj _ (by omega) _ (by omega) s2
    omega
  cases t1
  cases t2
  simp only at ey em ed eh emin es
  simp [ey, em, ed, eh, emin, es]

theorem upsert_table_rows_ok (now : Nat) (page : List (InputRow Unit β)) :
    ∀ (t : Table Unit β) (aff : List String),
    (page.map fun i => i.key).Nodup →
    (∀ i ∈ page, i.key ∉ aff) →
    ∃ T, upsert_table_rows now t aff page = .ok T := by
  induction page with
  | nil => intro t aff _ _; exact ⟨t, rfl⟩
  | cons h tl ih =>
    intro t aff hnd haff
    rw [List.map_cons] at hnd
    have hpair := List.nodup_cons.mp hnd
    have hnotin : ∀ i ∈ tl, ¬ i.key = h.key := by
      intro i hi hc
      exact hpair.1 (List.mem_map.mpr ⟨i, hi, hc⟩)
    have haffh : h.key ∉ aff := haff h (List.mem_cons_self h tl)
    have haff' : ∀ i ∈ tl, i.key ∉ (h.key :: aff) := by
      intro i hi
      simp only [List.mem_cons, not_or]
      exact ⟨hnotin i hi, haff i (List.mem_cons_of_mem h hi)⟩
    rw [upsert_table_rows]
    rw [if_neg (by simpa using haffh)]
    cases hk : hasKey t h.key with
    | true =>
      rw [if_pos rfl]
      exact ih _ (h.key :: aff) hpair.2 haff'
    | false =>
      rw [if_neg (by simp)]
      exact ih _ (h.key :: aff) hpair.2 haff'

theorem upsert_table_pages_ok (now : Nat) :
    ∀ (chunks : List (List (InputRow Unit β))) (t : Table Unit β),
    ((chunks.flatten.map fun i => i.key)).Nodup →
    ∃ T, List.foldlM (fun acc p => upsert_table_rows now acc [] p) t chunks = .ok T := by
  intro chunks
  induction chunks with
  | nil => intro t _; exact ⟨t, rfl⟩
  | cons p ps ih =>
    intro t hnd
    rw [List.flatten_cons, List.map_append] at hnd
    obtain ⟨T1, h1⟩ := upsert_table_rows_ok now p t [] hnd.of_append_left
      (by intro i _; simp)
    rw [List.foldlM_cons, h1]
    obtain ⟨T2, h2⟩ := ih T1 hnd.of_append_right
    exact ⟨T2, h2⟩

theorem upsert_table_ok (t : Table Unit β) (batch : List (InputRow Unit β)) (now : Nat)
    (hne : batch ≠ []) (hnd : (batch.map fun i => i.key).Nodup) :
    ∃ T, upsert_table t batch now = .ok (T, batch.length) := by
  unfold upsert_table
  rw [if_neg (by simp [List.isEmpty_iff, hne])]
  obtain ⟨T, hT⟩ := upsert_table_pages_ok now (toChunks batch) t
    (by rw [toChunks_flatten]; exact hnd)
  exact ⟨T, by rw [hT]; rfl⟩

/-! ## Claim theorems -/

/-- C1 (refuted by the code, confirming a code bug): with a source window of
three distinct transactions and a page size of two, `extract_transactions`
reports a total of 3, terminates, and returns the four records
`[t0, t1, t0, t1]` — the first page fetched twice — instead of the three
distinct records in source order: the pagination loop repeats the same
offset-less request, so the result has duplicates and the wrong length. -/
theorem extract_transactions_duplicates_bug :
    extract_transactions [0, 1, 2] 2 true 10 = some [0, 1, 0, 1] ∧
    ([0, 1, 2] : List Nat).Nodup ∧
    ¬ ([0, 1, 0, 1] : List Nat).Nodup ∧
    ([0, 1, 0, 1] : List Nat).length ≠ 3 := by decide

/-- C2: upserting the same record set twice is idempotent — for both
`load_accounts` and `load_transactions` (batch keys distinct, referenced
accounts loaded), the second run succeeds, reports zero inserts and an
updated count that is a natural number (hence nonnegative), leaves the
table row count unchanged, and changes no stored column other than
`updated_at` (`rowCore` strips `updated_at`). -/
theorem load_idempotent (t : Table Unit β) (accounts : Table Unit α)
    (tx : Table String γ) (batch : List (InputRow Unit β))
    (txBatch : List (InputRow String γ)) (now1 now2 : Nat)
    (hnd : (batch.map fun i => i.key).Nodup)
    (hndTx : (txBatch.map fun i => i.key).Nodup)
    (hacc : ∀ i ∈ txBatch, hasKey accounts i.fixed = true) :
    (∃ T1 i1 u1 u2, load_accounts t batch now1 = .ok (T1, i1, u1) ∧
      load_accounts T1 batch now2 = .ok (applyStmt batch now2 T1, 0, u2) ∧
      (applyStmt batch now2 T1).length = T1.length ∧
      (applyStmt batch now2 T1).map rowCore = T1.map rowCore) ∧
    (∃ T1 i1 u1 u2, load_transactions accounts tx txBatch now1 = .ok (T1, i1, u1) ∧
      load_transactions accounts T1 txBatch now2 = .ok (applyStmt txBatch now2 T1, 0, u2) ∧
      (applyStmt txBatch now2 T1).length = T1.length ∧
      (applyStmt txBatch now2 T1).map rowCore = T1.map rowCore) := by
  constructor
  · cases batch with
    | nil =>
      refine ⟨t, 0, 0, 0, rfl, ?_, ?_, ?_⟩
      · rw [applyStmt_nil]; rfl
      · rw [applyStmt_nil]
      · rw [applyStmt_nil]
    | cons h tl =>
      exact loadCore_idem (fun _ => true) t (h :: tl) now1 now2 hnd
        (by intro i _ _; rfl)
  · cases txBatch with
    | nil =>
      refine ⟨tx, 0, 0, 0, rfl, ?_, ?_, ?_⟩
      · rw [applyStmt_nil]; rfl
      · rw [applyStmt_nil]
      · rw [applyStmt_nil]
    | cons h tl =>
      exact loadCore_idem (fun a => hasKey accounts a) tx (h :: tl) now1 now2 hndTx
        (by intro i hi _; exact hacc i hi)

/-- Witness for C2 at a two-row account batch and a one-row transaction
batch. -/
theorem load_idempotent_witness :
    ((([⟨"a", (), "x"⟩, ⟨"b", (), "y"⟩] : List (InputRow Unit String)).map
      fun i => i.key).Nodup) ∧
    ((([⟨"t1", "A", "amt"⟩] : List (InputRow String String)).map
      fun i => i.key).Nodup) ∧
    (∀ i ∈ ([⟨"t1", "A", "amt"⟩] : List (InputRow String String)),
      hasKey ([⟨"A", (), "acct", 0, 0⟩] : Table Unit String) i.fixed = true) ∧
    ((∃ T1 i1 u1 u2,
      load_accounts ([] : Table Unit String) [⟨"a", (), "x"⟩, ⟨"b", (), "y"⟩] 1
        = .ok (T1, i1, u1) ∧
      load_accounts T1 [⟨"a", (), "x"⟩, ⟨"b", (), "y"⟩] 2
        = .ok (applyStmt [⟨"a", (), "x"⟩, ⟨"b", (), "y"⟩] 2 T1, 0, u2) ∧
      (applyStmt [⟨"a", (), "x"⟩, ⟨"b", (), "y"⟩] 2 T1).length = T1.length ∧
      (applyStmt [⟨"a", (), "x"⟩, ⟨"b", (), "y"⟩] 2 T1).map rowCore = T1.map rowCore) ∧
    (∃ T1 i1 u1 u2,
      load_transactions ([⟨"A", (), "acct", 0, 0⟩] : Table Unit String)
        ([] : Table String String) [⟨"t1", "A", "amt"⟩] 1 = .ok (T1, i1, u1) ∧
      load_transactions ([⟨"A", (), "acct", 0, 0⟩] : Table Unit String)
        T1 [⟨"t1", "A", "amt"⟩] 2
        = .ok (applyStmt [⟨"t1", "A", "amt"⟩] 2 T1, 0, u2) ∧
      (applyStmt [⟨"t1", "A", "amt"⟩] 2 T1).length = T1.length ∧
      (applyStmt [⟨"t1", "A", "amt"⟩] 2 T1).map rowCore = T1.map rowCore)) :=
  ⟨by decide, by decide, by decide,
    load_idempotent ([] : Table Unit String)
      ([⟨"A", (), "acct", 0, 0⟩] : Table Unit String) ([] : Table String String)
      [⟨"a", (), "x"⟩, ⟨"b", (), "y"⟩] [⟨"t1", "A", "amt"⟩] 1 2
      (by decide) (by decide) (by decide)⟩

/-- C3 counterexample: the generic `upsert_table` reports only
`len(data_list)`.  One existing row plus one fresh row and two fresh rows
produce identical observable results — the same final table and the same
reported count 2 — although the claim requires reported counts
distinguishing 1 insert + 1 update from 2 inserts + 0 updates. -/
theorem upsert_table_counts_indistinguishable :
    upsert_table ([⟨"a", (), "v0", 0, 0⟩] : Table Unit String)
      [⟨"a", (), "v1"⟩, ⟨"b", (), "v2"⟩] 5 =
      .ok ([⟨"a", (), "v1", 5, 5⟩, ⟨"b", (), "v2", 5, 5⟩], 2) ∧
    upsert_table ([] : Table Unit String)
      [⟨"a", (), "v1"⟩, ⟨"b", (), "v2"⟩] 5 =
      .ok ([⟨"a", (), "v1", 5, 5⟩, ⟨"b", (), "v2", 5, 5⟩], 2) ∧
    specInsertedCount ([⟨"a", (), "v0", 0, 0⟩] : Table Unit String)
      [⟨"a", (), "v1"⟩, ⟨"b", (), "v2"⟩] = 1 ∧
    specInsertedCount ([] : Table Unit String)
      [⟨"a", (), "v1"⟩, ⟨"b", (), "v2"⟩] = 2 :=
  ⟨rfl, rfl, rfl, rfl⟩

/-- C3 amended: for a non-empty batch of at most 100 rows (one
`execute_values` page) with distinct keys, `load_accounts` reports
`inserted` = the number of rows whose key was previously absent (the
`xmax = 0` pre-image signal), `updated` = the number previously present,
and `inserted + updated` = the batch size; the generic `upsert_table`
reports only the total row count, with no insert/update split. -/
theorem upsert_counts_characterization (t : Table Unit β)
    (batch : List (InputRow Unit β)) (now : Nat)
    (hne : batch ≠ []) (hlen : batch.length ≤ pageSizeEV)
    (hnd : (batch.map fun i => i.key).Nodup) :
    load_accounts t batch now = .ok (applyStmt batch now t,
      (batch.filter fun i => !hasKey t i.key).length,
      (batch.filter fun i => hasKey t i.key).length) ∧
    (batch.filter fun i => !hasKey t i.key).length +
      (batch.filter fun i => hasKey t i.key).length = batch.length ∧
    (∃ T, upsert_table t batch now = .ok (T, batch.length)) := by
  refine ⟨?_, ?_, upsert_table_ok t batch now hne hnd⟩
  · cases batch with
    | nil => exact absurd rfl hne
    | cons h tl =>
      exact loadCore_single_page (fun _ => true) t (h :: tl) now hne hlen hnd
        (by intro i _ _; rfl)
  · have hsum := length_filter_add_length_filter_not (fun i => !hasKey t i.key) batch
    have hfilter : (batch.filter fun i => !(!hasKey t i.key))
        = batch.filter fun i => hasKey t i.key := by
      apply List.filter_congr
      intro i _
      simp
    rw [hfilter] at hsum
    exact hsum

/-- Witness for C3 at a batch holding one conflicting and one fresh row. -/
theorem upsert_counts_characterization_witness :
    (([⟨"a", (), "v1"⟩, ⟨"b", (), "v2"⟩] : List (InputRow Unit String)) ≠ []) ∧
    (([⟨"a", (), "v1"⟩, ⟨"b", (), "v2"⟩] : List (InputRow Unit String)).length
      ≤ pageSizeEV) ∧
    ((([⟨"a", (), "v1"⟩, ⟨"b", (), "v2"⟩] : List (InputRow Unit String)).map
      fun i => i.key).Nodup) ∧
    (load_accounts ([⟨"a", (), "v0", 0, 0⟩] : Table Unit String)
      [⟨"a", (), "v1"⟩, ⟨"b", (), "v2"⟩] 5
      = .ok (applyStmt [⟨"a", (), "v1"⟩, ⟨"b", (), "v2"⟩] 5
          ([⟨"a", (), "v0", 0, 0⟩] : Table Unit String),
        (([⟨"a", (), "v1"⟩, ⟨"b", (), "v2"⟩] : List (InputRow Unit String)).filter
          fun i => !hasKey [⟨"a", (), "v0", 0, 0⟩] i.key).length,
        (([⟨"a", (), "v1"⟩, ⟨"b", (), "v2"⟩] : List (InputRow Unit String)).filter
          fun i => hasKey [⟨"a", (), "v0", 0, 0⟩] i.key).length) ∧
    (([⟨"a", (), "v1"⟩, ⟨"b", (), "v2"⟩] : List (InputRow Unit String)).filter
        fun i => !hasKey [⟨"a", (), "v0", 0, 0⟩] i.key).length +
      (([⟨"a", (), "v1"⟩, ⟨"b", (), "v2"⟩] : List (InputRow Unit String)).filter
        fun i => hasKey [⟨"a", (), "v0", 0, 0⟩] i.key).length
      = ([⟨"a", (), "v1"⟩, ⟨"b", (), "v2"⟩] : List (InputRow Unit String)).length ∧
    (∃ T, upsert_table ([⟨"a", (), "v0", 0, 0⟩] : Table Unit String)
      [⟨"a", (), "v1"⟩, ⟨"b", (), "v2"⟩] 5
      = .ok (T, ([⟨"a", (), "v1"⟩, ⟨"b", (), "v2"⟩] :
        List (InputRow Unit String)).length))) :=
  ⟨by decide, by decide, by decide,
    upsert_counts_characterization ([⟨"a", (), "v0", 0, 0⟩] : Table Unit String)
      [⟨"a", (), "v1"⟩, ⟨"b", (), "v2"⟩] 5 (by decide) (by decide) (by decide)⟩

/-- C4 counterexample: the detailed-logging `run()` with a failing
transaction extraction acquires the store connection, re-raises, but never
rolls back and never releases the connection; even its success path leaves
the connection open, although the claim requires release on both paths. -/
theorem run_logging_leaks_connection :
    run_logging false false false false true false false false false =
      ⟨true, false, false, true⟩ ∧
    run_logging false false false false false false false false false =
      ⟨true, false, false, false⟩ := by decide

/-- C4 amended: the `extrqct_upsert_accunt.py` orchestrator satisfies the
claim — for every failure pattern of its six steps, a connection is
acquired unless `connect` itself fails, the connection is released exactly
when it was acquired (on both success and failure paths), every failure is
re-raised, and a rollback happens exactly on failures with an open
connection.  (The detailed-logging `run()` violates the release and
rollback parts, see the counterexample.) -/
theorem run_extrqct_cleanup :
    ∀ fConnect fTables fExtractAcc fExtractTx fLoadAcc fLoadTx : Bool,
    (run_extrqct fConnect fTables fExtractAcc fExtractTx fLoadAcc fLoadTx).connAcquired
      = !fConnect ∧
    (run_extrqct fConnect fTables fExtractAcc fExtractTx fLoadAcc fLoadTx).connReleased
      = (run_extrqct fConnect fTables fExtractAcc fExtractTx fLoadAcc fLoadTx).connAcquired ∧
    (run_extrqct fConnect fTables fExtractAcc fExtractTx fLoadAcc fLoadTx).reRaised
      = (fConnect || fTables || fExtractAcc || fExtractTx || fLoadAcc || fLoadTx) ∧
    (run_extrqct fConnect fTables fExtractAcc fExtractTx fLoadAcc fLoadTx).rolledBack
      = ((fConnect || fTables || fExtractAcc || fExtractTx || fLoadAcc || fLoadTx) &&
        (run_extrqct fConnect fTables fExtractAcc fExtractTx fLoadAcc fLoadTx).connAcquired) := by
  decide

/-- C5 counterexample: a batch row whose `transaction_id` already exists
takes the conflict(update) path, which does not touch the stored
`account_id`, so a reference to the absent account `"X"` does not fail the
load — the batch commits as one update, contradicting the claim that such
a batch always fails. -/
theorem load_transactions_conflict_path_bypasses_fk :
    hasKey ([⟨"A", (), "acct", 0, 0⟩] : Table Unit String) "X" = false ∧
    load_transactions ([⟨"A", (), "acct", 0, 0⟩] : Table Unit String)
      ([⟨"t1", "A", "p0", 0, 0⟩] : Table String String)
      [⟨"t1", "X", "p1"⟩] 7 =
      .ok ([⟨"t1", "A", "p1", 0, 7⟩], 0, 1) :=
  ⟨by decide, rfl⟩

/-- C5 amended: for a batch with distinct transaction ids containing some
row whose transaction id is not yet stored and whose `account_id` is absent
from the accounts table, `load_transactions` fails with an error and the
committed state of the transactions table is unchanged — no row of the
batch is committed. -/
theorem load_transactions_fk_failure (accounts : Table Unit α) (t : Table String γ)
    (batch : List (InputRow String γ)) (now : Nat)
    (hnd : (batch.map fun i => i.key).Nodup)
    (hwit : ∃ i ∈ batch, hasKey t i.key = false ∧ hasKey accounts i.fixed = false) :
    (∃ er, load_transactions accounts t batch now = .error er) ∧
    committedTable t (load_transactions accounts t batch now) = t := by
  cases batch with
  | nil =>
    obtain ⟨i, hi, _⟩ := hwit
    exact absurd hi (List.not_mem_nil i)
  | cons h tl =>
    obtain ⟨er, her⟩ := loadCore_error (fun a => hasKey accounts a) t (h :: tl) now hnd hwit
    have heq : load_transactions accounts t (h :: tl) now =
        loadCore (fun a => hasKey accounts a) t (h :: tl) now := rfl
    refine ⟨⟨er, by rw [heq, her]⟩, ?_⟩
    rw [heq, her]
    rfl

/-- Witness for C5 at a one-row batch referencing an absent account. -/
theorem load_transactions_fk_failure_witness :
    ((([⟨"t1", "X", "p"⟩] : List (InputRow String String)).map
      fun i => i.key).Nodup) ∧
    (∃ i ∈ ([⟨"t1", "X", "p"⟩] : List (InputRow String String)),
      hasKey ([] : Table String String) i.key = false ∧
      hasKey ([] : Table Unit String) i.fixed = false) ∧
    ((∃ er, load_transactions ([] : Table Unit String) ([] : Table String String)
      [⟨"t1", "X", "p"⟩] 3 = .error er) ∧
    committedTable ([] : Table String String)
      (load_transactions ([] : Table Unit String) ([] : Table String String)
        [⟨"t1", "X", "p"⟩] 3) = ([] : Table String String)) :=
  ⟨by decide, by decide,
    load_transactions_fk_failure ([] : Table Unit String) ([] : Table String String)
      [⟨"t1", "X", "p"⟩] 3 (by decide) (by decide)⟩

/-- C6 counterexample: the detailed-logging exporter builds the key
`prefix + table + ".csv"` without any timestamp, so two exports of the same
table at two different instants produce the same artifact key,
contradicting the claimed `prefix/table.TIMESTAMP.ext` form and
non-collision. -/
theorem export_key_logging_collision :
    (⟨2025, 2, 13, 12, 13, 55⟩ : Timestamp) ≠ ⟨2025, 2, 14, 12, 13, 55⟩ ∧
    export_table_to_s3_key_at "daily/".toList "accounts".toList
      ⟨2025, 2, 13, 12, 13, 55⟩ =
    export_table_to_s3_key_at "daily/".toList "accounts".toList
      ⟨2025, 2, 14, 12, 13, 55⟩ :=
  ⟨by decide, rfl⟩

/-- C6 amended: in `postgres_to_s3.py` the artifact key is the
deterministic `prefix/table.TIMESTAMP.csv` built from the table name, the
normalised prefix and the export start instant, and two exports of the same
table whose start instants differ (at the second resolution of the
rendering) produce distinct keys.  (The detailed-logging exporter omits the
timestamp and reuses one key per table, see the counterexample.) -/
theorem export_key_distinct (pfx table : List Char) (t1 t2 : Timestamp)
    (h1 : t1.wellFormed) (h2 : t2.wellFormed) (hne : t1 ≠ t2) :
    export_key pfx table t1 ≠ export_key pfx table t2 := by
  intro h
  apply hne
  unfold export_key at h
  have e1 := List.append_cancel_right h
  have e2 := List.append_cancel_left e1
  exact timestamp_now_inj t1 t2 h1 h2 e2

/-- Witness for C6 at two well-formed instants one second apart. -/
theorem export_key_distinct_witness :
    (⟨2025, 2, 13, 12, 13, 55⟩ : Timestamp).wellFormed ∧
    (⟨2025, 2, 13, 12, 13, 56⟩ : Timestamp).wellFormed ∧
    (⟨2025, 2, 13, 12, 13, 55⟩ : Timestamp) ≠ ⟨2025, 2, 13, 12, 13, 56⟩ ∧
    export_key "daily/".toList "accounts".toList ⟨2025, 2, 13, 12, 13, 55⟩ ≠
      export_key "daily/".toList "accounts".toList ⟨2025, 2, 13, 12, 13, 56⟩ :=
  ⟨by decide, by decide, by decide,
    export_key_distinct "daily/".toList "accounts".toList _ _
      (by decide) (by decide) (by decide)⟩

/-- C7: an empty batch is a no-op for `load_accounts`, `load_transactions`
and `upsert_table`: the table is unchanged, zero rows are inserted or
updated, and no error is raised (the result is `.ok`). -/
theorem load_empty_noop (accounts : Table Unit α) (t : Table Unit β)
    (tx : Table String γ) (now : Nat) :
    load_accounts t [] now = .ok (t, 0, 0) ∧
    load_transactions accounts tx [] now = .ok (tx, 0, 0) ∧
    upsert_table t [] now = .ok (t, 0) :=
  ⟨rfl, rfl, rfl⟩

/-- C8: the binary64 value the Plaid client produces for the JSON amount
`1234.56` is passed through the row mapping unchanged, stored into the
`DECIMAL(15,2)` column, and read back as exactly `1234.56` — no
floating-point drift and no truncation. -/
theorem amount_roundtrip_exact :
    pgReadDecimal2 (pgStoreDecimal2 (mapAmount amountFloat1234_56)) = 1234.56 := by
  norm_num [pgReadDecimal2, pgStoreDecimal2, mapAmount, amountFloat1234_56]

/-- C9: when the source response omits `total_transactions`,
`extract_transactions` takes the first page's length as the total, the
pagination loop never runs, and exactly the first page's records are
returned. -/
theorem extract_transactions_missing_total (source : List α) (k fuel : Nat) :
    extract_transactions source k false fuel = some (source.take k) := by
  unfold extract_transactions transactionsGetPage
  simp only [Bool.false_eq_true, if_false]
  rw [fetchLoop.eq_def]
  simp

/-- C10: each omitted date bound of `extract_transactions` defaults
independently — the start date to the UTC date 90 days before today and the
end date to today — so a call with no arguments extracts the 90-day window
ending today. -/
theorem extract_transactions_default_dates (d s e : Int) :
    resolve_dates none none d = (d - 90, d) ∧
    resolve_dates (some s) none d = (s, d) ∧
    resolve_dates none (some e) d = (d - 90, e) ∧
    resolve_dates (some s) (some e) d = (s, e) :=
  ⟨rfl, rfl, rfl, rfl⟩
